import Mathlib

/-!
Verification of the streaming core of the Blink-App repository
(`app_v2.py`, `blink_diagnostic.py`) against its natural-language
specification.

Bytes are modelled as natural numbers (each in `0..255`; the demuxer only
compares them for equality, so no arithmetic overflow is involved).
Strings are modelled as lists of characters.
-/

namespace BlinkApp

/-- Model of Python `bytes.find(pat, i)` for a two-byte pattern `[x, y]`:
index of the first adjacent pair `x, y` in the list, if any.
(`app_v2.py` only ever searches for the two-byte JPEG markers.) -/
def find2 (x y : Nat) : List Nat → Option Nat
  | [] => none
  | [_] => none
  | a :: b :: l => if a = x ∧ b = y then some 0 else (find2 x y (b :: l)).map (· + 1)

theorem find2_drop_spec : ∀ (l : List Nat) (i : Nat), find2 x y l = some i →
    ∃ t, l.drop i = x :: y :: t := by
  intro l
  induction l with
  | nil => intro i h; simp [find2] at h
  | cons a l ih =>
    intro i h
    match l, h with
    | b :: t, h =>
      rw [find2] at h
      by_cases hab : a = x ∧ b = y
      · rw [if_pos hab] at h
        cases h
        exact ⟨t, by simp [hab.1, hab.2]⟩
      · rw [if_neg hab] at h
        rcases Option.map_eq_some'.mp h with ⟨j, hj, hji⟩
        rcases ih j hj with ⟨t', ht'⟩
        exact ⟨t', by simpa [← hji] using ht'⟩

theorem find2_bound {l : List Nat} {i : Nat} (h : find2 x y l = some i) :
    i + 2 ≤ l.length := by
  rcases find2_drop_spec l i h with ⟨t, ht⟩
  have := congrArg List.length ht
  simp [List.length_drop] at this
  omega

theorem find2_append {l r : List Nat} {i : Nat} (h : find2 x y l = some i) :
    find2 x y (l ++ r) = some i := by
  induction l generalizing i with
  | nil => simp [find2] at h
  | cons a l ih =>
    match l, h with
    | b :: t, h =>
      rw [find2] at h
      rw [List.cons_append, List.cons_append, find2]
      by_cases hab : a = x ∧ b = y
      · rw [if_pos hab] at h; cases h; rw [if_pos hab]
      · rw [if_neg hab] at h
        rcases Option.map_eq_some'.mp h with ⟨j, hj, hji⟩
        rw [if_neg hab, ← List.cons_append, ih hj]
        simp [hji]

theorem find2_cons_none {a b : Nat} {t : List Nat} (hab : ¬(a = x ∧ b = y))
    (h : find2 x y (b :: t) = none) : find2 x y (a :: b :: t) = none := by
  rw [find2, if_neg hab, h]; rfl

/-- If `u` contains no adjacent pair `x, y` and `x ≠ y`, then the first such
pair of `u ++ x :: y :: v` is exactly at position `u.length`. -/
theorem find2_none_append (hxy : x ≠ y) :
    ∀ (u v : List Nat), find2 x y u = none →
      find2 x y (u ++ x :: y :: v) = some u.length := by
  intro u
  induction u with
  | nil => intro v _; simp [find2]
  | cons a u ih =>
    intro v hu
    match u with
    | [] =>
      rw [List.cons_append, List.nil_append, find2]
      have hax : ¬(a = x ∧ x = y) := fun h => hxy h.2
      rw [if_neg hax]
      have : find2 x y (x :: y :: v) = some 0 := by simp [find2]
      simp [this]
    | b :: t =>
      rw [find2] at hu
      by_cases hab : a = x ∧ b = y
      · rw [if_pos hab] at hu; cases hu
      · rw [if_neg hab] at hu
        have ht : find2 x y (b :: t) = none := by
          cases hfind : find2 x y (b :: t) with
          | none => rfl
          | some j => rw [hfind] at hu; simp at hu
        rw [List.cons_append, List.cons_append, find2, if_neg hab,
          ← List.cons_append, ih v ht]
        simp [List.length_cons]

/-- One drain pass of the JPEG frame demuxer of `_stream_via_ffmpeg`
(`app_v2.py` lines 545-566), made structurally recursive on a fuel
argument.  Mirrors the inner `while True` loop: find the first `FF D8`
(`255, 216`), find the first `FF D9` (`255, 217`) at or after it, emit
`buffer[start:end+2]`, continue on `buffer[end+2:]`; on either failed
search stop, keeping the whole buffer. -/
def drainAux : Nat → List Nat → List (List Nat) × List Nat
  | 0, buf => ([], buf)
  | fuel + 1, buf =>
    match find2 255 216 buf with
    | none => ([], buf)
    | some s =>
      match find2 255 217 (buf.drop s) with
      | none => ([], buf)
      | some e0 =>
        let out := drainAux fuel (buf.drop (s + e0 + 2))
        ((buf.take (s + e0 + 2)).drop s :: out.1, out.2)

/-- The demuxer drain on a buffer: each complete frame consumes at least two
bytes, so `buf.length` steps of fuel always suffice. -/
def drainFrames (buf : List Nat) : List (List Nat) × List Nat :=
  drainAux buf.length buf

theorem drainAux_nil (fuel : Nat) : drainAux fuel [] = ([], []) := by
  cases fuel <;> simp [drainAux, find2]

theorem drainAux_congr : ∀ (f1 f2 : Nat) (buf : List Nat),
    buf.length ≤ f1 → buf.length ≤ f2 → drainAux f1 buf = drainAux f2 buf := by
  intro f1
  induction f1 with
  | zero =>
    intro f2 buf h1 _
    have : buf = [] := List.length_eq_zero.mp (Nat.le_zero.mp h1)
    subst this
    rw [drainAux_nil, drainAux_nil]
  | succ n ih =>
    intro f2 buf h1 h2
    cases f2 with
    | zero =>
      have : buf = [] := List.length_eq_zero.mp (Nat.le_zero.mp h2)
      subst this
      rw [drainAux_nil, drainAux_nil]
    | succ m =>
      cases hs : find2 255 216 buf with
      | none => simp only [drainAux, hs]
      | some s =>
        cases he : find2 255 217 (buf.drop s) with
        | none => simp only [drainAux, hs, he]
        | some e0 =>
          have hb1 : s + 2 ≤ buf.length := find2_bound hs
          have hb2 : e0 + 2 ≤ (buf.drop s).length := find2_bound he
          rw [List.length_drop] at hb2
          have hr : (buf.drop (s + e0 + 2)).length ≤ n := by
            rw [List.length_drop]; omega
          have hr2 : (buf.drop (s + e0 + 2)).length ≤ m := by
            rw [List.length_drop]; omega
          simp only [drainAux, hs, he, ih n (buf.drop (s + e0 + 2)) hr hr,
            ih m (buf.drop (s + e0 + 2)) hr hr2]

theorem drainFrames_no_start {buf : List Nat} (hs : find2 255 216 buf = none) :
    drainFrames buf = ([], buf) := by
  unfold drainFrames
  cases hlen : buf.length with
  | zero =>
    have : buf = [] := List.length_eq_zero.mp hlen
    subst this; rw [drainAux_nil]
  | succ n => simp only [drainAux, hs]

theorem drainFrames_no_end {buf : List Nat} {s : Nat}
    (hs : find2 255 216 buf = some s) (he : find2 255 217 (buf.drop s) = none) :
    drainFrames buf = ([], buf) := by
  unfold drainFrames
  cases hlen : buf.length with
  | zero =>
    have : buf = [] := List.length_eq_zero.mp hlen
    subst this; rw [drainAux_nil]
  | succ n => simp only [drainAux, hs, he]

theorem drainFrames_step {buf : List Nat} {s e0 : Nat}
    (hs : find2 255 216 buf = some s) (he : find2 255 217 (buf.drop s) = some e0) :
    drainFrames buf =
      ((buf.take (s + e0 + 2)).drop s :: (drainFrames (buf.drop (s + e0 + 2))).1,
       (drainFrames (buf.drop (s + e0 + 2))).2) := by
  have hb1 : s + 2 ≤ buf.length := find2_bound hs
  have hb2 : e0 + 2 ≤ (buf.drop s).length := find2_bound he
  rw [List.length_drop] at hb2
  unfold drainFrames
  cases hlen : buf.length with
  | zero => omega
  | succ n =>
    simp only [drainAux, hs, he]
    have hr : (buf.drop (s + e0 + 2)).length ≤ n := by
      rw [List.length_drop]; omega
    rw [drainAux_congr n (buf.drop (s + e0 + 2)).length (buf.drop (s + e0 + 2)) hr le_rfl]

/-- Model of one `feed` of the demuxer: append the chunk to the retained
buffer (`buffer += chunk`) and drain all complete frames. -/
def feed (buf chunk : List Nat) : List (List Nat) × List Nat :=
  drainFrames (buf ++ chunk)

/-- Feeding a sequence of chunks one at a time, collecting all emitted
frames in order; mirrors the outer `while True` read loop of
`_stream_via_ffmpeg`. -/
def feedAll (buf : List Nat) : List (List Nat) → List (List Nat) × List Nat
  | [] => ([], buf)
  | c :: cs =>
    let out := feed buf c
    let rest := feedAll out.2 cs
    (out.1 ++ rest.1, rest.2)

/-- Draining `a ++ b` is the same as draining `a` and then draining the
retained remainder together with `b`: the demux loop is online. -/
theorem drainFrames_append : ∀ (a b : List Nat),
    drainFrames (a ++ b) =
      ((drainFrames a).1 ++ (drainFrames ((drainFrames a).2 ++ b)).1,
       (drainFrames ((drainFrames a).2 ++ b)).2) := by
  have main : ∀ (n : Nat) (a b : List Nat), a.length ≤ n →
      drainFrames (a ++ b) =
        ((drainFrames a).1 ++ (drainFrames ((drainFrames a).2 ++ b)).1,
         (drainFrames ((drainFrames a).2 ++ b)).2) := by
    intro n
    induction n with
    | zero =>
      intro a b h1
      have ha : a = [] := List.length_eq_zero.mp (Nat.le_zero.mp h1)
      subst ha
      have h0 : drainFrames ([] : List Nat) = ([], []) := drainFrames_no_start rfl
      simp [h0]
    | succ n ih =>
      intro a b h1
      cases hs : find2 255 216 a with
      | none =>
        rw [drainFrames_no_start hs]
        simp
      | some s =>
        cases he : find2 255 217 (a.drop s) with
        | none =>
          rw [drainFrames_no_end hs he]
          simp
        | some e0 =>
          have hb1 : s + 2 ≤ a.length := find2_bound hs
          have hb2 : e0 + 2 ≤ (a.drop s).length := find2_bound he
          rw [List.length_drop] at hb2
          have hsab : find2 255 216 (a ++ b) = some s := find2_append hs
          have hdab : (a ++ b).drop s = a.drop s ++ b :=
            List.drop_append_of_le_length (by omega)
          have heab : find2 255 217 ((a ++ b).drop s) = some e0 := by
            rw [hdab]; exact find2_append he
          have htake : (a ++ b).take (s + e0 + 2) = a.take (s + e0 + 2) :=
            List.take_append_of_le_length (by omega)
          have hdrop : (a ++ b).drop (s + e0 + 2) = a.drop (s + e0 + 2) ++ b :=
            List.drop_append_of_le_length (by omega)
          rw [drainFrames_step hsab heab, drainFrames_step hs he, htake, hdrop]
          have hrec := ih (a.drop (s + e0 + 2)) b (by rw [List.length_drop]; omega)
          rw [hrec]
          simp
  intro a b
  exact main a.length a b le_rfl

/-- The remainder retained by a drain contains no further complete frame:
draining it again yields nothing and keeps it unchanged. -/
theorem drainFrames_residual (a : List Nat) :
    drainFrames (drainFrames a).2 = ([], (drainFrames a).2) := by
  have h := drainFrames_append a []
  rw [List.append_nil, List.append_nil] at h
  have h1 : (drainFrames a).1 = (drainFrames a).1 ++ (drainFrames (drainFrames a).2).1 := by
    have := congrArg Prod.fst h
    simpa using this
  have h2 : (drainFrames (drainFrames a).2).1 = [] := by
    have := congrArg List.length h1
    rw [List.length_append] at this
    have : (drainFrames (drainFrames a).2).1.length = 0 := by omega
    exact List.length_eq_zero.mp this
  have h3 : (drainFrames a).2 = (drainFrames (drainFrames a).2).2 := by
    have := congrArg Prod.snd h
    simpa using this
  have heta : drainFrames (drainFrames a).2 =
      ((drainFrames (drainFrames a).2).1, (drainFrames (drainFrames a).2).2) := rfl
  rw [heta, h2, ← h3]

/-- Chunk-boundary independence: feeding any chunk sequence one chunk at a
time produces exactly the frames (and final retained buffer) of draining
the whole concatenation at once, provided the starting buffer is a
residual (in particular the empty initial buffer). -/
theorem feedAll_join : ∀ (chunks : List (List Nat)) (buf : List Nat),
    drainFrames buf = ([], buf) →
    feedAll buf chunks = drainFrames (buf ++ chunks.flatten) := by
  intro chunks
  induction chunks with
  | nil =>
    intro buf hres
    simp [feedAll, List.flatten, hres.symm]
  | cons c cs ih =>
    intro buf hres
    have hstep := drainFrames_append (buf ++ c) cs.flatten
    have hres2 : drainFrames (feed buf c).2 = ([], (feed buf c).2) :=
      drainFrames_residual (buf ++ c)
    have ihc := ih (feed buf c).2 hres2
    show ((feed buf c).1 ++ (feedAll (feed buf c).2 cs).1, (feedAll (feed buf c).2 cs).2) = _
    rw [ihc]
    have : buf ++ (c :: cs).flatten = (buf ++ c) ++ cs.flatten := by
      simp [List.flatten]
    rw [this, hstep]
    rfl

/-- Every frame emitted by the demuxer starts with the `FF D8` marker, ends
with the `FF D9` marker, and is at least 4 bytes long (both markers
included); no truncated frame is ever emitted. -/
theorem drainFrames_markers : ∀ (buf f : List Nat), f ∈ (drainFrames buf).1 →
    (∃ m, f = 255 :: 216 :: m) ∧ f.drop (f.length - 2) = [255, 217] ∧ 4 ≤ f.length := by
  have main : ∀ (n : Nat) (buf f : List Nat), buf.length ≤ n → f ∈ (drainFrames buf).1 →
      (∃ m, f = 255 :: 216 :: m) ∧ f.drop (f.length - 2) = [255, 217] ∧ 4 ≤ f.length := by
    intro n
    induction n with
    | zero =>
      intro buf f h1 hf
      have : buf = [] := List.length_eq_zero.mp (Nat.le_zero.mp h1)
      subst this
      rw [drainFrames_no_start (show find2 255 216 [] = none from rfl)] at hf
      simp at hf
    | succ n ih =>
      intro buf f h1 hf
      cases hs : find2 255 216 buf with
      | none => rw [drainFrames_no_start hs] at hf; simp at hf
      | some s =>
        cases he : find2 255 217 (buf.drop s) with
        | none => rw [drainFrames_no_end hs he] at hf; simp at hf
        | some e0 =>
          rw [drainFrames_step hs he] at hf
          have hb1 : s + 2 ≤ buf.length := find2_bound hs
          have hb2 : e0 + 2 ≤ (buf.drop s).length := find2_bound he
          rcases List.mem_cons.mp hf with hhd | htl
          · subst hhd
            rcases find2_drop_spec _ _ hs with ⟨t, hts⟩
            rcases find2_drop_spec _ _ he with ⟨t', hte⟩
            have hframe : (buf.take (s + e0 + 2)).drop s = (buf.drop s).take (e0 + 2) := by
              rw [List.drop_take]
              congr 1
              omega
            have he2 : 2 ≤ e0 := by
              by_contra hlt
              push_neg at hlt
              interval_cases e0
              · rw [List.drop_zero] at hte
                rw [hts] at hte
                simp at hte
              · rw [hts] at hte
                simp at hte
            have hlen : ((buf.drop s).take (e0 + 2)).length = e0 + 2 := by
              rw [List.length_take]
              omega
            refine ⟨⟨t.take e0, ?_⟩, ?_, ?_⟩
            · rw [hframe, hts]
              simp [List.take_succ_cons]
            · rw [hframe, hlen]
              have h2 : e0 + 2 - 2 = e0 := by omega
              rw [h2, List.drop_take]
              have h3 : e0 + 2 - e0 = 2 := by omega
              rw [List.drop_drop] at hte
              rw [h3, List.drop_drop, hte]
              rfl
            · rw [hframe, hlen]; omega
          · exact ih (buf.drop (s + e0 + 2)) f (by rw [List.length_drop]; omega) htl
  intro buf f hf
  exact main buf.length buf f le_rfl hf

/-- A single well-formed JPEG frame as produced between the two markers:
`FF D8`, a payload, `FF D9`. -/
def encFrame (p : List Nat) : List Nat :=
  255 :: 216 :: (p ++ [255, 217])

theorem encFrame_length (p : List Nat) : (encFrame p).length = p.length + 4 := by
  simp [encFrame]

theorem find2_enc_none {p : List Nat} (hp : find2 255 217 p = none) :
    find2 255 217 (255 :: 216 :: p) = none := by
  cases p with
  | nil => rfl
  | cons p0 pt =>
    apply find2_cons_none (by omega)
    exact find2_cons_none (by omega) hp

/-- Draining a buffer holding exactly two complete frames whose payloads
contain no end marker yields those two frames in order and empties the
buffer. -/
theorem drainFrames_two (p q : List Nat)
    (hp : find2 255 217 p = none) (hq : find2 255 217 q = none) :
    drainFrames (encFrame p ++ encFrame q) = ([encFrame p, encFrame q], []) := by
  have hshape : encFrame p ++ encFrame q = (255 :: 216 :: p) ++ 255 :: 217 :: encFrame q := by
    simp [encFrame]
  have hs : find2 255 216 (encFrame p ++ encFrame q) = some 0 := by
    simp [encFrame, find2]
  have he : find2 255 217 (encFrame p ++ encFrame q) = some (p.length + 2) := by
    rw [hshape]
    have := find2_none_append (by omega) (255 :: 216 :: p) (encFrame q) (find2_enc_none hp)
    simpa using this
  have he' : find2 255 217 ((encFrame p ++ encFrame q).drop 0) = some (p.length + 2) := by
    rw [List.drop_zero]; exact he
  rw [drainFrames_step hs he']
  have htake : (encFrame p ++ encFrame q).take (0 + (p.length + 2) + 2) = encFrame p := by
    apply List.take_left'
    rw [encFrame_length]; omega
  have hdrop : (encFrame p ++ encFrame q).drop (0 + (p.length + 2) + 2) = encFrame q := by
    apply List.drop_left'
    rw [encFrame_length]; omega
  rw [htake, hdrop, List.drop_zero]
  have hs2 : find2 255 216 (encFrame q) = some 0 := by
    simp [encFrame, find2]
  have he2 : find2 255 217 ((encFrame q).drop 0) = some (q.length + 2) := by
    rw [List.drop_zero]
    have hshape2 : encFrame q = (255 :: 216 :: q) ++ 255 :: 217 :: ([] : List Nat) := by
      simp [encFrame]
    rw [hshape2]
    have := find2_none_append (by omega) (255 :: 216 :: q) [] (find2_enc_none hq)
    simpa using this
  rw [drainFrames_step hs2 he2]
  have htake2 : (encFrame q).take (0 + (q.length + 2) + 2) = encFrame q := by
    have : 0 + (q.length + 2) + 2 = (encFrame q).length := by rw [encFrame_length]; omega
    rw [this, List.take_length]
  have hdrop2 : (encFrame q).drop (0 + (q.length + 2) + 2) = [] := by
    have : 0 + (q.length + 2) + 2 = (encFrame q).length := by rw [encFrame_length]; omega
    rw [this, List.drop_length]
  rw [htake2, hdrop2, List.drop_zero,
    drainFrames_no_start (show find2 255 216 [] = none from rfl)]

theorem find2_tail_none {a : Nat} {t : List Nat} (h : find2 x y (a :: t) = none) :
    find2 x y t = none := by
  cases t with
  | nil => rfl
  | cons b t' =>
    rw [find2] at h
    by_cases hab : a = x ∧ b = y
    · rw [if_pos hab] at h; cases h
    · rw [if_neg hab] at h
      cases hfind : find2 x y (b :: t') with
      | none => rfl
      | some j => rw [hfind] at h; simp at h

theorem find2_drop_none : ∀ (n : Nat) (l : List Nat), find2 x y l = none →
    find2 x y (l.drop n) = none := by
  intro n
  induction n with
  | zero => intro l h; rw [List.drop_zero]; exact h
  | succ n ih =>
    intro l h
    cases l with
    | nil => rfl
    | cons a t => exact ih t (find2_tail_none h)

theorem find2_none_of_not_mem {l : List Nat} (h : y ∉ l) : find2 x y l = none := by
  induction l with
  | nil => rfl
  | cons a t ih =>
    cases t with
    | nil => rfl
    | cons b t' =>
      apply find2_cons_none
      · intro hab
        exact h (by rw [hab.2]; simp)
      · exact ih (fun hm => h (List.mem_cons_of_mem a hm))

/-- A buffer with no end marker anywhere holds no complete frame: the drain
emits nothing, keeps every byte, and (being a total function) fails with no
error — there is no size bound. -/
theorem drainFrames_unterminated {buf : List Nat} (h : find2 255 217 buf = none) :
    drainFrames buf = ([], buf) := by
  cases hs : find2 255 216 buf with
  | none => exact drainFrames_no_start hs
  | some s => exact drainFrames_no_end hs (find2_drop_none s buf h)

/-- Model of `b in data[:20]` for a byte pattern: substring containment in
the first 20 bytes. -/
def subIn (pat : List Nat) : List Nat → Bool
  | [] => decide (pat = [])
  | x :: xs => (List.isPrefixOf pat (x :: xs)) || subIn pat xs

/-- The video-detection test of `blink_diagnostic._test_immis` (line 266):
`b'\x00\x00\x00\x01' in data[:20] or b'\x00\x00\x01' in data[:20]`. -/
def hasStartCode (d : List Nat) : Bool :=
  subIn [0, 0, 0, 1] (d.take 20) || subIn [0, 0, 1] (d.take 20)

/-- How one nonempty handshake response is treated by the candidate loop of
`_test_immis` (lines 261-276).  `jsonParses` stands for the outcome of the
external `json.loads(data.decode())` call (its success or failure does not
change control flow; it only selects which diagnostic is printed). -/
inductive RespClass
  | success            -- start code found: video data, negotiation succeeds
  | jsonRejection      -- no start code; bytes parsed as a JSON record (printed)
  | rawRejection       -- no start code; bytes not parseable as JSON
  deriving DecidableEq

def classifyResponse (d : List Nat) (jsonParses : Bool) : RespClass :=
  if hasStartCode d then .success
  else if jsonParses then .jsonRejection
  else .rawRejection

/-- What one candidate's attempt produced, as observed by the loop body. -/
inductive AttemptResult
  | connectFail                                -- open_connection raised
  | readTimeout                                -- asyncio.TimeoutError on read
  | emptyData                                  -- 0 bytes received
  | response (d : List Nat) (jsonParses : Bool) -- nonempty bytes received

/-- Result of running the candidate loop: number of connection attempts,
index of the winning candidate (if any), and the attempt indices at which a
fresh connection was opened, in order. -/
structure NegoResult where
  attempts : Nat
  winner : Option Nat
  conns : List Nat
  deriving DecidableEq, Repr

/-- The candidate loop of `_test_immis` (lines 243-288): for each candidate
in order, open a fresh TLS connection, send the payload, read; return
success as soon as a response contains a video start code, otherwise move
to the next candidate.  `i` is the index of the current candidate. -/
def negotiateFrom : List AttemptResult → Nat → NegoResult
  | [], _ => ⟨0, none, []⟩
  | r :: rs, i =>
    match r with
    | .response d _ =>
      if hasStartCode d then ⟨1, some i, [i]⟩
      else
        let k := negotiateFrom rs (i + 1)
        ⟨k.attempts + 1, k.winner, i :: k.conns⟩
    | _ =>
      let k := negotiateFrom rs (i + 1)
      ⟨k.attempts + 1, k.winner, i :: k.conns⟩

def negotiate (resps : List AttemptResult) : NegoResult :=
  negotiateFrom resps 0

theorem negotiateFrom_attempts_le : ∀ (resps : List AttemptResult) (i : Nat),
    (negotiateFrom resps i).attempts ≤ resps.length := by
  intro resps
  induction resps with
  | nil => intro i; simp [negotiateFrom]
  | cons r rs ih =>
    intro i
    cases r with
    | response d j =>
      by_cases hd : hasStartCode d
      · simp [negotiateFrom, hd]
      · simp [negotiateFrom, hd]
        have := ih (i + 1)
        omega
    | connectFail =>
      simp only [negotiateFrom, List.length_cons]
      have := ih (i + 1)
      omega
    | readTimeout =>
      simp only [negotiateFrom, List.length_cons]
      have := ih (i + 1)
      omega
    | emptyData =>
      simp only [negotiateFrom, List.length_cons]
      have := ih (i + 1)
      omega

theorem negotiateFrom_conns : ∀ (resps : List AttemptResult) (i : Nat),
    (negotiateFrom resps i).conns = List.range' i (negotiateFrom resps i).attempts := by
  intro resps
  induction resps with
  | nil => intro i; simp [negotiateFrom]
  | cons r rs ih =>
    intro i
    cases r with
    | response d j =>
      by_cases hd : hasStartCode d
      · simp [negotiateFrom, hd, List.range']
      · simp [negotiateFrom, hd]
        rw [ih (i + 1), List.range'_succ]
    | connectFail =>
      simp only [negotiateFrom]
      rw [ih (i + 1), List.range'_succ]
    | readTimeout =>
      simp only [negotiateFrom]
      rw [ih (i + 1), List.range'_succ]
    | emptyData =>
      simp only [negotiateFrom]
      rw [ih (i + 1), List.range'_succ]

/-- State of one stream session's resources, as far as teardown observes
them: the handler's writer and `connected` flag (`IMMISStreamHandler`),
and the ffmpeg generator of `_stream_via_ffmpeg` with its subprocess. -/
structure SessionState where
  writerPresent : Bool   -- self.writer is not None
  writerClosed : Bool    -- transport closed (asyncio close is idempotent)
  connected : Bool       -- self.connected
  genFinished : Bool     -- the generator's finally block has run
  termSignals : Nat      -- process.terminate() calls issued
  deriving DecidableEq, Repr

/-- `IMMISStreamHandler.close` (`app_v2.py` lines 180-188): close the
writer if present (any error from `wait_closed` is swallowed by the bare
`except: pass`), then clear `connected`.  Total: it never raises. -/
def handlerClose (s : SessionState) : SessionState :=
  if s.writerPresent then { s with writerClosed := true, connected := false }
  else { s with connected := false }

/-- Finalization of the `_stream_via_ffmpeg` generator (`app_v2.py` lines
568-570): the `finally` block terminates the subprocess.  Python finalizes
a generator at most once; a second close of an already-finished generator
is a no-op. -/
def generatorClose (s : SessionState) : SessionState :=
  if s.genFinished then s
  else { s with genFinished := true, termSignals := s.termSignals + 1 }

/-- One fallback-loop iteration of `stream_camera.mjpeg_stream` (`app_v2.py`
lines 410-428), as observed by the generator: either one of the awaited
calls raised (caught by the inner `except`, which only sleeps), or the
refresh succeeded and `camera.image_from_cache` held the given bytes
(`[]` for a missing/empty image, which Python treats as falsy). -/
inductive FallbackStep
  | snapErr
  | snap (img : List Nat)

/-- The non-empty snapshot images surfaced by the account service during
the fallback loop, in order. -/
def fallbackImages (steps : List FallbackStep) : List (List Nat) :=
  steps.filterMap fun s =>
    match s with
    | .snapErr => none
    | .snap i => if i = [] then none else some i

/-- The images yielded by the snapshot-fallback loop: an image is yielded
when it is non-empty and differs from `last_frame` (initially `None`),
and `last_frame` is updated to it. -/
def fallbackYields : List FallbackStep → Option (List Nat) → List (List Nat)
  | [], _ => []
  | .snapErr :: rest, last => fallbackYields rest last
  | .snap img :: rest, last =>
    if img ≠ [] ∧ some img ≠ last then img :: fallbackYields rest (some img)
    else fallbackYields rest last

/-- The chunks yielded to the MJPEG consumer: boundary line, content-type
header, frame bytes, trailing CRLF. -/
inductive MjpegChunk
  | boundary
  | contentType
  | frame (b : List Nat)
  | crlf
  deriving DecidableEq

/-- The four yields the generator makes per delivered image. -/
def yieldFrame (b : List Nat) : List MjpegChunk :=
  [.boundary, .contentType, .frame b, .crlf]

/-- The full `mjpeg_stream` generator (`app_v2.py` lines 356-428).
`strat1` abstracts the try-block of the video strategies (standard-relay
ffmpeg path and negotiated-relay proxy path): the frames it yielded before
returning or raising, and whether it raised (any exception is caught at
line 403, after which the generator continues with the snapshot fallback).
The generator is a total function into a chunk list: it never raises to
the consumer. -/
def mjpeg_stream (strat1 : List (List Nat) × Bool) (steps : List FallbackStep) :
    List MjpegChunk :=
  (strat1.1.map yieldFrame).flatten ++
    (if strat1.2 then ((fallbackYields steps none).map yieldFrame).flatten else [])

/-- The image frames among the yielded chunks. -/
def framesOf (cs : List MjpegChunk) : List (List Nat) :=
  cs.filterMap fun c =>
    match c with
    | .frame b => some b
    | _ => none

theorem framesOf_yields (l : List (List Nat)) :
    framesOf ((l.map yieldFrame).flatten) = l := by
  induction l with
  | nil => rfl
  | cons b t ih =>
    simp only [List.map_cons, List.flatten_cons]
    show framesOf (yieldFrame b ++ (t.map yieldFrame).flatten) = b :: t
    unfold framesOf at *
    rw [List.filterMap_append]
    rw [ih]
    rfl

theorem destutter_head {R : List Nat → List Nat → Prop} [DecidableRel R] :
    ∀ (l : List (List Nat)) (a : List Nat), ∃ t, l.destutter' R a = a :: t := by
  intro l
  induction l with
  | nil => intro a; exact ⟨[], rfl⟩
  | cons b l ih =>
    intro a
    rw [List.destutter'_cons]
    by_cases h : R a b
    · exact ⟨_, by rw [if_pos h]⟩
    · rcases ih a with ⟨t, ht⟩
      exact ⟨t, by rw [if_neg h, ht]⟩

/-- The fallback loop yields exactly the nonempty snapshot images with
consecutive duplicates removed: `last = none` at entry, and after any
yielded image `v` the subsequent yields skip images equal to the previous
one (`List.destutter'` continuing from `v`). -/
theorem fallbackYields_destutter : ∀ (steps : List FallbackStep),
    fallbackYields steps none = (fallbackImages steps).destutter (· ≠ ·) ∧
      ∀ v, fallbackYields steps (some v) =
        ((fallbackImages steps).destutter' (· ≠ ·) v).tail := by
  intro steps
  induction steps with
  | nil =>
    constructor
    · rfl
    · intro v; rfl
  | cons s rest ih =>
    cases s with
    | snapErr =>
      have h1 : fallbackImages (FallbackStep.snapErr :: rest) = fallbackImages rest := by
        simp [fallbackImages, List.filterMap_cons]
      constructor
      · show fallbackYields rest none = _
        rw [h1, ih.1]
      · intro v
        show fallbackYields rest (some v) = _
        rw [h1, ih.2 v]
    | snap img =>
      by_cases hempty : img = []
      · have h1 : fallbackImages (FallbackStep.snap img :: rest) = fallbackImages rest := by
          simp [fallbackImages, List.filterMap_cons, hempty]
        constructor
        · show (if img ≠ [] ∧ some img ≠ none then img :: fallbackYields rest (some img)
              else fallbackYields rest none) = _
          rw [if_neg (by simp [hempty]), h1, ih.1]
        · intro v
          show (if img ≠ [] ∧ some img ≠ some v then img :: fallbackYields rest (some img)
              else fallbackYields rest (some v)) = _
          rw [if_neg (by simp [hempty]), h1, ih.2 v]
      · have h1 : fallbackImages (FallbackStep.snap img :: rest) =
            img :: fallbackImages rest := by
          simp [fallbackImages, List.filterMap_cons, hempty]
        constructor
        · show (if img ≠ [] ∧ some img ≠ none then img :: fallbackYields rest (some img)
              else fallbackYields rest none) = _
          rw [if_pos ⟨hempty, by simp⟩, h1, List.destutter_cons']
          rcases destutter_head (R := (· ≠ ·)) (fallbackImages rest) img with ⟨t, ht⟩
          rw [ht, ih.2 img, ht]
          rfl
        · intro v
          show (if img ≠ [] ∧ some img ≠ some v then img :: fallbackYields rest (some img)
              else fallbackYields rest (some v)) = _
          rw [h1, List.destutter'_cons]
          by_cases hv : img = v
          · rw [if_neg (by simp [hv]), if_neg (by simp [hv]), ih.2 v]
          · rw [if_pos ⟨hempty, by simp [hv]⟩,
              if_pos (show v ≠ img from fun h => hv h.symm)]
            rcases destutter_head (R := (· ≠ ·)) (fallbackImages rest) img with ⟨t, ht⟩
            rw [List.tail_cons, ht, ih.2 img, ht]
            rfl

/-- The only error the reference parser can produce: Python's untyped
`ValueError`, raised by `int()` on a non-numeric string or by unpacking
`split(':')` into two names when there is more than one colon. -/
inductive PyErr
  | valueError
  deriving DecidableEq

/-- `startsWith pat l`: `pat` is a prefix of `l` (Python `str.startswith`). -/
def startsWith : List Char → List Char → Bool
  | [], _ => true
  | _ :: _, [] => false
  | p :: ps, x :: xs => p = x && startsWith ps xs

/-- Python `s.split(c, 1)` when `c ∈ s`: the parts before and after the
first occurrence of `c`; `none` when `c ∉ s`. -/
def splitOnce (c : Char) : List Char → Option (List Char × List Char)
  | [] => none
  | x :: xs =>
    if x = c then some ([], xs)
    else (splitOnce c xs).map fun pr => (x :: pr.1, pr.2)

/-- Python `s.split(c)` (full split, keeping empty parts). -/
def splitAll (c : Char) : List Char → List (List Char)
  | [] => [[]]
  | x :: xs =>
    if x = c then [] :: splitAll c xs
    else
      match splitAll c xs with
      | [] => [[x]]
      | h :: t => (x :: h) :: t

def digitsToNat (l : List Char) : Nat :=
  l.foldl (fun acc c => acc * 10 + (c.toNat - 48)) 0

/-- Python `int(s)` restricted to the shapes exercised here: a nonempty
all-digit string converts; the empty string and strings with non-digit
characters raise `ValueError` (modelled as `none`). -/
def pyInt (s : List Char) : Option Nat :=
  if s ≠ [] ∧ s.all Char.isDigit then some (digitsToNat s) else none

def immisScheme : List Char := ['i', 'm', 'm', 'i', 's', ':', '/', '/']

/-- The host:port phase of `_parse_url` (`app_v2.py` lines 97-104): if the
host:port segment contains a colon, `host, port = host_port.split(':')`
followed by `port = int(port)` — a `ValueError` when there is more than
one colon or the port text is not a number — else port defaults to 443. -/
def parseHostPort (hostport path : List Char) : Except PyErr (List Char × Nat × List Char) :=
  if ':' ∈ hostport then
    match splitAll ':' hostport with
    | [h, p] =>
      match pyInt p with
      | some n => .ok (h, n, path)
      | none => .error .valueError
    | _ => .error .valueError
  else .ok (hostport, 443, path)

/-- The path split of `_parse_url` (`app_v2.py` lines 90-95): host:port is
everything before the first `/`; the path keeps the `/` and defaults to
`/` when absent. -/
def parse_url_rest (u : List Char) : Except PyErr (List Char × Nat × List Char) :=
  match splitOnce '/' u with
  | some pr => parseHostPort pr.1 ('/' :: pr.2)
  | none => parseHostPort u ['/']

/-- `IMMISStreamHandler._parse_url` (`app_v2.py` lines 84-104): strip an
`immis://` prefix if present, then split host:port/path and convert the
port.  There is no scheme or host validation. -/
def parse_url (url : List Char) : Except PyErr (List Char × Nat × List Char) :=
  parse_url_rest (if startsWith immisScheme url then url.drop 8 else url)

def sessionKeyRest : List Char := ['e', 's', 's', 'i', 'o', 'n', '=']

/-- The literal `'session='` searched for in the path. -/
def sessionKey : List Char := 's' :: sessionKeyRest

/-- Suffix of `l` after the first occurrence of (nonempty) `pat`, if any;
left-to-right scan as in Python. -/
def afterFirst (pat : List Char) : List Char → Option (List Char)
  | [] => none
  | x :: xs =>
    if startsWith pat (x :: xs) then some ((x :: xs).drop pat.length)
    else afterFirst pat xs

theorem afterFirst_length {p0 : Char} {pr : List Char} :
    ∀ {l r : List Char}, afterFirst (p0 :: pr) l = some r → r.length < l.length := by
  intro l
  induction l with
  | nil => intro r h; simp [afterFirst] at h
  | cons x xs ih =>
    intro r h
    rw [afterFirst] at h
    by_cases hw : startsWith (p0 :: pr) (x :: xs)
    · rw [if_pos hw] at h
      cases h
      simp only [List.length_cons, List.drop_succ_cons, List.length_drop]
      omega
    · rw [if_neg hw] at h
      have := ih h
      simp only [List.length_cons]
      omega

/-- `afterLast` with explicit fuel; `l.length` steps always suffice since
each jump strictly shortens the remaining string. -/
def afterLastAux (p0 : Char) (pr : List Char) : Nat → List Char → List Char
  | 0, l => l
  | fuel + 1, l =>
    match afterFirst (p0 :: pr) l with
    | none => l
    | some r => afterLastAux p0 pr fuel r

/-- Suffix after the last occurrence of the pattern, scanning occurrences
left to right without overlap: Python `l.split(pat)[-1]` (the whole string
when the pattern does not occur). -/
def afterLast (p0 : Char) (pr : List Char) (l : List Char) : List Char :=
  afterLastAux p0 pr l.length l

theorem afterLastAux_congr (p0 : Char) (pr : List Char) :
    ∀ (f1 f2 : Nat) (l : List Char), l.length ≤ f1 → l.length ≤ f2 →
      afterLastAux p0 pr f1 l = afterLastAux p0 pr f2 l := by
  intro f1
  induction f1 with
  | zero =>
    intro f2 l h1 _
    have : l = [] := List.length_eq_zero.mp (Nat.le_zero.mp h1)
    subst this
    cases f2 with
    | zero => rfl
    | succ m => simp [afterLastAux, afterFirst]
  | succ n ih =>
    intro f2 l h1 h2
    cases f2 with
    | zero =>
      have : l = [] := List.length_eq_zero.mp (Nat.le_zero.mp h2)
      subst this
      simp [afterLastAux, afterFirst]
    | succ m =>
      cases hf : afterFirst (p0 :: pr) l with
      | none => simp only [afterLastAux, hf]
      | some r =>
        have hlen := afterFirst_length hf
        simp only [afterLastAux, hf]
        exact ih m r (by omega) (by omega)

theorem afterLast_none {p0 : Char} {pr l : List Char}
    (h : afterFirst (p0 :: pr) l = none) : afterLast p0 pr l = l := by
  unfold afterLast
  cases hlen : l.length with
  | zero => rfl
  | succ n => simp only [afterLastAux, h]

theorem afterLast_step {p0 : Char} {pr l r : List Char}
    (h : afterFirst (p0 :: pr) l = some r) : afterLast p0 pr l = afterLast p0 pr r := by
  unfold afterLast
  have hlen := afterFirst_length h
  cases hl : l.length with
  | zero => omega
  | succ n =>
    simp only [afterLastAux, h]
    exact afterLastAux_congr p0 pr n r.length r (by omega) le_rfl

/-- Python `s.split(c)[0]`: prefix before the first occurrence of `c`. -/
def takeUntil (c : Char) : List Char → List Char
  | [] => []
  | x :: xs => if x = c then [] else x :: takeUntil c xs

/-- The session extraction of `IMMISStreamHandler._build_subscription`
(`app_v2.py` lines 130-137): if `'session='` occurs in the path, the
session is the text after its last occurrence up to the first `'&'`; a
missing or empty extraction falls back to the raw path
(`session_id or self.path`). -/
def sessionOf (path : List Char) : List Char :=
  if (afterFirst sessionKey path).isSome then
    let sid := takeUntil '&' (afterLast 's' sessionKeyRest path)
    if sid ≠ [] then sid else path
  else path

/-- Parsing as claimed by the spec: connection parameters from
`_parse_url` together with the session identifier derived from the path by
`_build_subscription`. -/
def parseRef (url : List Char) : Except PyErr (List Char × Nat × List Char) :=
  match parse_url url with
  | .ok (h, n, path) => .ok (h, n, sessionOf path)
  | .error e => .error e

theorem startsWith_eq_take : ∀ (p l : List Char),
    startsWith p l = true ↔ l.take p.length = p := by
  intro p
  induction p with
  | nil => intro l; simp [startsWith]
  | cons p ps ih =>
    intro l
    cases l with
    | nil => simp [startsWith]
    | cons x xs =>
      rw [startsWith, List.length_cons, List.take_succ_cons]
      rw [Bool.and_eq_true, decide_eq_true_iff]
      rw [List.cons.injEq, ih xs]
      constructor
      · rintro ⟨h1, h2⟩; exact ⟨h1.symm, h2⟩
      · rintro ⟨h1, h2⟩; exact ⟨h1.symm, h2⟩

theorem startsWith_append (p r : List Char) : startsWith p (p ++ r) = true := by
  rw [startsWith_eq_take]
  exact List.take_left p r

theorem splitOnce_not_mem {c : Char} : ∀ {l : List Char}, c ∉ l → splitOnce c l = none := by
  intro l
  induction l with
  | nil => intro _; rfl
  | cons x xs ih =>
    intro h
    rw [splitOnce, if_neg (fun hx : x = c => h (by rw [hx]; exact List.mem_cons_self c xs)),
      ih (fun hm => h (List.mem_cons_of_mem x hm))]
    rfl

theorem splitOnce_mid {c : Char} : ∀ {a : List Char} (b : List Char), c ∉ a →
    splitOnce c (a ++ c :: b) = some (a, b) := by
  intro a
  induction a with
  | nil => intro b _; simp [splitOnce]
  | cons x xs ih =>
    intro b h
    rw [List.cons_append, splitOnce,
      if_neg (fun hx : x = c => h (by rw [hx]; exact List.mem_cons_self c xs)),
      ih b (fun hm => h (List.mem_cons_of_mem x hm))]
    rfl

theorem splitAll_not_mem {c : Char} : ∀ {l : List Char}, c ∉ l → splitAll c l = [l] := by
  intro l
  induction l with
  | nil => intro _; rfl
  | cons x xs ih =>
    intro h
    rw [splitAll, if_neg (fun hx : x = c => h (by rw [hx]; exact List.mem_cons_self c xs)),
      ih (fun hm => h (List.mem_cons_of_mem x hm))]

theorem splitAll_mid {c : Char} : ∀ {a : List Char} (b : List Char), c ∉ a →
    splitAll c (a ++ c :: b) = a :: splitAll c b := by
  intro a
  induction a with
  | nil => intro b _; simp [splitAll]
  | cons x xs ih =>
    intro b h
    rw [List.cons_append, splitAll,
      if_neg (fun hx : x = c => h (by rw [hx]; exact List.mem_cons_self c xs)),
      ih b (fun hm => h (List.mem_cons_of_mem x hm))]

theorem takeUntil_not_mem {c : Char} : ∀ {l : List Char}, c ∉ l → takeUntil c l = l := by
  intro l
  induction l with
  | nil => intro _; rfl
  | cons x xs ih =>
    intro h
    rw [takeUntil, if_neg (fun hx : x = c => h (by rw [hx]; exact List.mem_cons_self c xs)),
      ih (fun hm => h (List.mem_cons_of_mem x hm))]

/-- `'session='` has no nontrivial border: no proper nonempty suffix of the
pattern is also a prefix, so occurrences cannot overlap a fixed occurrence
from the left. -/
theorem sessionKey_border : ∀ t, t < 8 → 0 < t →
    sessionKey.drop t ≠ sessionKey.take (8 - t) := by
  decide

theorem afterFirst_cons_none {pat : List Char} {x : Char} {xs : List Char}
    (h : afterFirst pat (x :: xs) = none) :
    startsWith pat (x :: xs) = false ∧ afterFirst pat xs = none := by
  rw [afterFirst] at h
  by_cases hw : startsWith pat (x :: xs)
  · rw [if_pos hw] at h; cases h
  · rw [if_neg hw] at h
    exact ⟨Bool.not_eq_true _ ▸ Bool.of_not_eq_true hw, h⟩

/-- If a string decomposes as `a ++ sessionKey ++ b` where `a` contains no
occurrence, then the first occurrence of `'session='` is the displayed
one, and the suffix after it is `b`. -/
theorem afterFirst_at : ∀ (a b : List Char), afterFirst sessionKey a = none →
    afterFirst sessionKey (a ++ sessionKey ++ b) = some b := by
  intro a
  induction a with
  | nil =>
    intro b _
    rw [List.nil_append]
    show afterFirst sessionKey ('s' :: (sessionKeyRest ++ b)) = some b
    rw [afterFirst]
    have hws : startsWith sessionKey ('s' :: (sessionKeyRest ++ b)) = true := by
      have := startsWith_append sessionKey b
      simpa [sessionKey] using this
    rw [if_pos hws]
    have : ('s' :: (sessionKeyRest ++ b)).drop sessionKey.length = b := by
      show (sessionKey ++ b).drop sessionKey.length = b
      exact List.drop_left sessionKey b
    rw [this]
  | cons x xs ih =>
    intro b ha
    rcases afterFirst_cons_none ha with ⟨hw, ha'⟩
    rw [List.cons_append, List.cons_append, afterFirst]
    have hassoc : x :: (xs ++ sessionKey ++ b) = (x :: xs) ++ (sessionKey ++ b) := by
      simp
    have hwfull : ¬ startsWith sessionKey (x :: (xs ++ sessionKey ++ b)) = true := by
      intro hsw
      rw [startsWith_eq_take, hassoc] at hsw
      by_cases hlen : 8 ≤ (x :: xs).length
      · rw [List.take_append_of_le_length
          (show sessionKey.length ≤ (x :: xs).length from hlen)] at hsw
        have : startsWith sessionKey (x :: xs) = true := (startsWith_eq_take _ _).mpr hsw
        rw [hw] at this
        cases this
      · push_neg at hlen
        rw [List.take_append_eq_append_take,
          List.take_of_length_le (show (x :: xs).length ≤ sessionKey.length by
            show (x :: xs).length ≤ 8
            omega),
          List.take_append_of_le_length (show sessionKey.length - (x :: xs).length ≤
            sessionKey.length by omega)] at hsw
        have hdropped : sessionKey.drop (x :: xs).length =
            sessionKey.take (sessionKey.length - (x :: xs).length) := by
          have := congrArg (List.drop (x :: xs).length) hsw
          rw [List.drop_left] at this
          exact this.symm
        have hm8 : sessionKey.length = 8 := rfl
        rw [hm8] at hdropped
        exact sessionKey_border (x :: xs).length (by omega) (by simp) hdropped
    rw [if_neg hwfull]
    exact ih b ha'

theorem classify_no_start {d : List Nat} {j : Bool}
    (h : classifyResponse d j = RespClass.jsonRejection) : hasStartCode d = false := by
  by_cases hd : hasStartCode d
  · rw [classifyResponse, if_pos hd] at h; cases h
  · simpa using hd

/-- C4 (amended): the demuxer imposes no bound on buffered unterminated
bytes.  A buffer with no end marker — of any size — yields no frames, is
retained in full, and raises no error; the demuxer stays usable: a later
complete frame is still extracted (and the stale bytes before its start
marker are discarded with it). -/
theorem frame_buffer_unbounded (buf : List Nat)
    (hnostart : find2 255 216 buf = none) (hnoend : find2 255 217 buf = none)
    (p : List Nat) (hp : find2 255 217 p = none) :
    drainFrames buf = ([], buf) ∧ feed buf (encFrame p) = ([encFrame p], []) := by
  refine ⟨drainFrames_unterminated hnoend, ?_⟩
  unfold feed
  have hs : find2 255 216 (buf ++ encFrame p) = some buf.length := by
    have := find2_none_append (x := 255) (y := 216) (by omega) buf (p ++ [255, 217]) hnostart
    simpa [encFrame] using this
  have hdrop : (buf ++ encFrame p).drop buf.length = encFrame p := List.drop_left buf _
  have he : find2 255 217 ((buf ++ encFrame p).drop buf.length) = some (p.length + 2) := by
    rw [hdrop]
    have hshape : encFrame p = (255 :: 216 :: p) ++ 255 :: 217 :: ([] : List Nat) := by
      simp [encFrame]
    rw [hshape]
    have := find2_none_append (x := 255) (y := 217) (by omega) (255 :: 216 :: p) []
      (find2_enc_none hp)
    simpa using this
  rw [drainFrames_step hs he]
  have hlen : buf.length + (p.length + 2) + 2 = (buf ++ encFrame p).length := by
    simp [encFrame]
    omega
  have htake : (buf ++ encFrame p).take (buf.length + (p.length + 2) + 2) =
      buf ++ encFrame p := by
    rw [hlen, List.take_length]
  have hdropall : (buf ++ encFrame p).drop (buf.length + (p.length + 2) + 2) = [] := by
    rw [hlen, List.drop_length]
  rw [htake, hdropall, List.drop_left buf _,
    drainFrames_no_start (show find2 255 216 [] = none from rfl)]

/-- C4 witness: a small unterminated buffer is retained with no error, and
a complete frame fed afterwards is still demuxed. -/
theorem frame_buffer_unbounded_witness :
    drainFrames [0, 0, 0] = ([], [0, 0, 0]) ∧
      feed [0, 0, 0] (encFrame [5]) = ([encFrame [5]], []) :=
  frame_buffer_unbounded [0, 0, 0] (by decide) (by decide) [5] (by decide)

/-- C4 counterexample to the claimed overflow bound: feeding more than
8 MB (8388609 bytes) of unterminated input produces no `FrameOverflowError`
and no failure of any kind — the demuxer (a total function) returns
normally, retaining every byte. -/
theorem frame_buffer_no_overflow_error :
    drainFrames (List.replicate 8388609 0) = ([], List.replicate 8388609 0) := by
  apply drainFrames_unterminated
  apply find2_none_of_not_mem
  rw [List.mem_replicate]
  omega

/-- C5: the negotiation loop tries candidates in their fixed order, opening
one fresh connection per attempt (the attempt indices of opened connections
are exactly `0, 1, …`, pairwise distinct — no connection is reused), makes
at most one connection attempt per candidate, and in the scenario where
candidates 1 and 2 receive a structured-record (`ProtocolError`) response
and candidate 3 receives a payload with a video start code, it succeeds
with candidate 3 after exactly 3 connection attempts. -/
theorem negotiate_order_and_scenario :
    (∀ resps : List AttemptResult,
      (negotiate resps).attempts ≤ resps.length ∧
      (negotiate resps).conns = List.range (negotiate resps).attempts ∧
      (negotiate resps).conns.Nodup) ∧
    (∀ (d1 d2 v : List Nat) (jv : Bool),
      classifyResponse d1 true = RespClass.jsonRejection →
      classifyResponse d2 true = RespClass.jsonRejection →
      hasStartCode v = true →
      negotiate [.response d1 true, .response d2 true, .response v jv] =
        ⟨3, some 2, [0, 1, 2]⟩) := by
  constructor
  · intro resps
    refine ⟨negotiateFrom_attempts_le resps 0, ?_, ?_⟩
    · rw [show negotiate resps = negotiateFrom resps 0 from rfl,
        negotiateFrom_conns resps 0, List.range_eq_range']
    · rw [show negotiate resps = negotiateFrom resps 0 from rfl,
        negotiateFrom_conns resps 0]
      exact List.nodup_range' 0 _
  · intro d1 d2 v jv h1 h2 hv
    have hd1 := classify_no_start h1
    have hd2 := classify_no_start h2
    simp [negotiate, negotiateFrom, hd1, hd2, hv]

/-- C5 witness: a `{`-byte response parsed as JSON for the first two
candidates, a start-code payload for the third. -/
theorem negotiate_order_and_scenario_witness :
    negotiate [.response [123] true, .response [123] true, .response [0, 0, 0, 1] true] =
      ⟨3, some 2, [0, 1, 2]⟩ :=
  negotiate_order_and_scenario.2 [123] [123] [0, 0, 0, 1] true
    (by decide) (by decide) (by decide)

/-- C6 (amended): response classification is, in order: (a) a video start
code within the first 20 bytes gives Success; (b) otherwise the response is
a failure for the current candidate regardless of its byte length — if the
bytes parse as a JSON record the record is surfaced (`ProtocolError` with
the record), otherwise the raw bytes are kept; there is no minimum-length
rule under which an unrecognized payload counts as Success. -/
theorem classification_rule (d : List Nat) (j : Bool) :
    (hasStartCode d = true → classifyResponse d j = RespClass.success) ∧
    (hasStartCode d = false → j = true → classifyResponse d j = RespClass.jsonRejection) ∧
    (hasStartCode d = false → j = false → classifyResponse d j = RespClass.rawRejection) ∧
    (hasStartCode d = false → classifyResponse d j ≠ RespClass.success) := by
  refine ⟨?_, ?_, ?_, ?_⟩
  · intro h; simp [classifyResponse, h]
  · intro h hj; simp [classifyResponse, h, hj]
  · intro h hj; subst hj; simp [classifyResponse, h]
  · intro h
    cases j <;> simp [classifyResponse, h]

theorem classification_rule_witness :
    classifyResponse [0, 0, 1] true = RespClass.success ∧
    classifyResponse [9] true = RespClass.jsonRejection ∧
    classifyResponse [9] false = RespClass.rawRejection :=
  ⟨(classification_rule [0, 0, 1] true).1 (by decide),
   (classification_rule [9] true).2.1 (by decide) rfl,
   (classification_rule [9] false).2.2.1 (by decide) rfl⟩

/-- C6 counterexample to the length-threshold rule: a one-million-byte
payload with no start code and not parseable as JSON is classified as a
rejection, not Success, although its length exceeds any minimum
video-frame threshold. -/
theorem classification_no_length_threshold :
    classifyResponse (List.replicate 1000000 7) false = RespClass.rawRejection := by
  have h : hasStartCode (List.replicate 1000000 7) = false := by
    unfold hasStartCode
    rw [List.take_replicate]
    decide
  unfold classifyResponse
  rw [h]
  rfl

/-- C9: session teardown is idempotent.  `IMMISStreamHandler.close` run
twice yields the state of running it once and never raises (every failing
await is wrapped in `except: pass`); the generator finalizer that owns the
ffmpeg subprocess runs at most once, so a second teardown sends no second
termination signal. -/
theorem teardown_idempotent (s : SessionState) :
    handlerClose (handlerClose s) = handlerClose s ∧
    generatorClose (generatorClose s) = generatorClose s ∧
    (generatorClose (generatorClose s)).termSignals = (generatorClose s).termSignals := by
  refine ⟨?_, ?_, ?_⟩
  · by_cases hw : s.writerPresent <;> simp [handlerClose, hw]
  · by_cases hg : s.genFinished <;> simp [generatorClose, hg]
  · by_cases hg : s.genFinished <;> simp [generatorClose, hg]

theorem find2_prefix_none {a b : List Nat} (h : find2 x y (a ++ b) = none) :
    find2 x y a = none := by
  cases hf : find2 x y a with
  | none => rfl
  | some i => rw [find2_append hf] at h; cases h

/-- Draining a buffer holding exactly one complete frame whose payload
contains no end marker yields that frame and empties the buffer. -/
theorem drainFrames_single (p : List Nat) (hp : find2 255 217 p = none) :
    drainFrames (encFrame p) = ([encFrame p], []) := by
  have hs : find2 255 216 (encFrame p) = some 0 := by
    simp [encFrame, find2]
  have he : find2 255 217 ((encFrame p).drop 0) = some (p.length + 2) := by
    rw [List.drop_zero]
    have hshape : encFrame p = (255 :: 216 :: p) ++ 255 :: 217 :: ([] : List Nat) := by
      simp [encFrame]
    rw [hshape]
    have := find2_none_append (x := 255) (y := 217) (by omega) (255 :: 216 :: p) []
      (find2_enc_none hp)
    simpa using this
  rw [drainFrames_step hs he]
  have htake : (encFrame p).take (0 + (p.length + 2) + 2) = encFrame p := by
    have : 0 + (p.length + 2) + 2 = (encFrame p).length := by rw [encFrame_length]; omega
    rw [this, List.take_length]
  have hdrop : (encFrame p).drop (0 + (p.length + 2) + 2) = [] := by
    have : 0 + (p.length + 2) + 2 = (encFrame p).length := by rw [encFrame_length]; omega
    rw [this, List.drop_length]
  rw [htake, hdrop, List.drop_zero,
    drainFrames_no_start (show find2 255 216 [] = none from rfl)]

/-- C1: when the video strategies fail (raise before yielding any frame),
the MJPEG generator — a total function, all strategy and snapshot errors
being caught inside it — yields exactly the nonempty cached snapshot
images with consecutive duplicates suppressed; two consecutively yielded
frames are never byte-identical. -/
theorem stream_fallback_frames (steps : List FallbackStep) :
    framesOf (mjpeg_stream ([], true) steps) =
      (fallbackImages steps).destutter (· ≠ ·) ∧
    List.Chain' (· ≠ ·) (framesOf (mjpeg_stream ([], true) steps)) := by
  have h1 : framesOf (mjpeg_stream ([], true) steps) = fallbackYields steps none := by
    show framesOf ((([] : List (List Nat)).map yieldFrame).flatten ++
      (if true then ((fallbackYields steps none).map yieldFrame).flatten else [])) = _
    simp only [List.map_nil, List.flatten_nil, List.nil_append, if_true]
    exact framesOf_yields _
  rw [h1, (fallbackYields_destutter steps).1]
  exact ⟨rfl, List.destutter_is_chain' _ _⟩

/-- C2: every emitted frame carries both markers — it starts with `FF D8`
and ends with `FF D9` (so no truncated frame is ever emitted) — and a
buffer holding `FF D8 <p> FF D9 FF D8 <q> FF D9` with marker-free payloads
yields exactly the two frames in order, of lengths `|p|+4` and `|q|+4`. -/
theorem frame_boundary_rule :
    (∀ (buf f : List Nat), f ∈ (drainFrames buf).1 →
      (∃ m, f = 255 :: 216 :: m) ∧ f.drop (f.length - 2) = [255, 217] ∧ 4 ≤ f.length) ∧
    (∀ (p q : List Nat), find2 255 217 p = none → find2 255 217 q = none →
      drainFrames (encFrame p ++ encFrame q) = ([encFrame p, encFrame q], []) ∧
      (encFrame p).length = p.length + 4 ∧ (encFrame q).length = q.length + 4) :=
  ⟨drainFrames_markers, fun p q hp hq =>
    ⟨drainFrames_two p q hp hq, encFrame_length p, encFrame_length q⟩⟩

theorem frame_boundary_rule_witness :
    ((∃ m, [255, 216, 7, 255, 217] = 255 :: 216 :: m) ∧
      List.drop ([255, 216, 7, 255, 217].length - 2) [255, 216, 7, 255, 217] = [255, 217] ∧
      4 ≤ [255, 216, 7, 255, 217].length) ∧
    (drainFrames (encFrame [1] ++ encFrame [2]) = ([encFrame [1], encFrame [2]], []) ∧
      (encFrame [1]).length = [1].length + 4 ∧ (encFrame [2]).length = [2].length + 4) :=
  ⟨frame_boundary_rule.1 (encFrame [7]) [255, 216, 7, 255, 217] (by decide),
   frame_boundary_rule.2 [1] [2] (by decide) (by decide)⟩

/-- C3: chunk-boundary independence — feeding any chunk sequence one chunk
at a time yields the same frames in the same order (and the same retained
buffer) as draining the whole concatenation in one call; in particular a
chunk holding a start marker with no end marker emits nothing, and a later
chunk supplying the end marker completes exactly one frame spanning both
chunks. -/
theorem chunk_boundary_independence :
    (∀ chunks : List (List Nat), feedAll [] chunks = drainFrames chunks.flatten) ∧
    (∀ (p q : List Nat), find2 255 217 (p ++ q) = none →
      feed [] (255 :: 216 :: p) = ([], 255 :: 216 :: p) ∧
      feedAll [] [255 :: 216 :: p, q ++ [255, 217]] = ([encFrame (p ++ q)], [])) := by
  constructor
  · intro chunks
    have := feedAll_join chunks []
      (drainFrames_no_start (show find2 255 216 [] = none from rfl))
    simpa using this
  · intro p q hpq
    have hp : find2 255 217 p = none := find2_prefix_none hpq
    have h1 : drainFrames (255 :: 216 :: p) = ([], 255 :: 216 :: p) :=
      drainFrames_unterminated (find2_enc_none hp)
    have hc : (255 :: 216 :: p) ++ (q ++ [255, 217]) = encFrame (p ++ q) := by
      simp [encFrame]
    have h2 : drainFrames ((255 :: 216 :: p) ++ (q ++ [255, 217])) =
        ([encFrame (p ++ q)], []) := by
      rw [hc]
      exact drainFrames_single (p ++ q) hpq
    constructor
    · show drainFrames ([] ++ (255 :: 216 :: p)) = _
      rw [List.nil_append]
      exact h1
    · simp only [feedAll, feed, List.nil_append, h1, h2]
      simp

theorem chunk_boundary_independence_witness :
    feed [] (255 :: 216 :: [1]) = ([], 255 :: 216 :: [1]) ∧
      feedAll [] [255 :: 216 :: [1], [2] ++ [255, 217]] = ([encFrame ([1] ++ [2])], []) :=
  chunk_boundary_independence.2 [1] [2] (by decide)

theorem parse_url_immis (rest : List Char) :
    parse_url (immisScheme ++ rest) = parse_url_rest rest := rfl

theorem parse_url_rest_split {u a b : List Char} (hsp : splitOnce '/' u = some (a, b)) :
    parse_url_rest u = parseHostPort a ('/' :: b) := by
  unfold parse_url_rest
  rw [hsp]

theorem parse_url_rest_nosplit {u : List Char} (hsp : splitOnce '/' u = none) :
    parse_url_rest u = parseHostPort u ['/'] := by
  unfold parse_url_rest
  rw [hsp]

theorem parseHostPort_port {h p path : List Char} {n : Nat}
    (hhc : ':' ∉ h) (hpc : ':' ∉ p) (hn : pyInt p = some n) :
    parseHostPort (h ++ ':' :: p) path = .ok (h, n, path) := by
  unfold parseHostPort
  rw [if_pos (List.mem_append_right h (List.mem_cons_self ':' p)),
    splitAll_mid p hhc, splitAll_not_mem hpc]
  show (match pyInt p with
    | some n => (Except.ok (h, n, path) : Except PyErr (List Char × Nat × List Char))
    | none => Except.error PyErr.valueError) = Except.ok (h, n, path)
  rw [hn]

theorem parseHostPort_noport {hostport path : List Char} (hhc : ':' ∉ hostport) :
    parseHostPort hostport path = .ok (hostport, 443, path) := by
  unfold parseHostPort
  rw [if_neg hhc]

theorem parseRef_ok {url h path : List Char} {n : Nat}
    (hp : parse_url url = .ok (h, n, path)) :
    parseRef url = .ok (h, n, sessionOf path) := by
  unfold parseRef
  rw [hp]

theorem sessionOf_none {path : List Char} (h : afterFirst sessionKey path = none) :
    sessionOf path = path := by
  unfold sessionOf
  rw [h]
  rfl

theorem sessionOf_query {a s : List Char} (ha : afterFirst sessionKey a = none)
    (hs : afterFirst sessionKey s = none) (hamp : '&' ∉ s) (hne : s ≠ []) :
    sessionOf (a ++ sessionKey ++ s) = s := by
  have h1 : afterFirst sessionKey (a ++ sessionKey ++ s) = some s := afterFirst_at a s ha
  unfold sessionOf
  rw [h1]
  have h2 : afterLast 's' sessionKeyRest (a ++ sessionKey ++ s) = s := by
    rw [afterLast_step h1, afterLast_none hs]
  simp only [Option.isSome_some, if_true, h2, takeUntil_not_mem hamp]
  rw [if_pos hne]

/-- The splitOnce fact shared by the host:port forms of the reference. -/
theorem splitOnce_hostport {h p tail0 : List Char}
    (hhs : '/' ∉ h) (hps : '/' ∉ p) :
    splitOnce '/' (h ++ ':' :: (p ++ '/' :: tail0)) = some (h ++ ':' :: p, tail0) := by
  have hform : h ++ ':' :: (p ++ '/' :: tail0) = (h ++ ':' :: p) ++ '/' :: tail0 := by
    simp
  rw [hform]
  apply splitOnce_mid
  intro hm
  rcases List.mem_append.mp hm with hm | hm
  · exact hhs hm
  · rcases List.mem_cons.mp hm with hm | hm
    · exact absurd hm (by decide)
    · exact hps hm

/-- C7: for well-formed proprietary references the parser produces host,
port and session identifier: `immis://h:p/path?session=s` gives
`(h, p, s)`; an omitted port defaults to 443; an omitted (or empty)
`session=` query makes the raw path the session identifier. -/
theorem reference_parsing :
    (∀ (h p s pathseg : List Char) (n : Nat),
      ':' ∉ h → '/' ∉ h → ':' ∉ p → '/' ∉ p → pyInt p = some n →
      afterFirst sessionKey ('/' :: pathseg ++ ['?']) = none →
      afterFirst sessionKey s = none → '&' ∉ s → s ≠ [] →
      parseRef (immisScheme ++
          (h ++ ':' :: (p ++ '/' :: (pathseg ++ '?' :: (sessionKey ++ s))))) =
        .ok (h, n, s)) ∧
    (∀ (h s pathseg : List Char),
      ':' ∉ h → '/' ∉ h →
      afterFirst sessionKey ('/' :: pathseg ++ ['?']) = none →
      afterFirst sessionKey s = none → '&' ∉ s → s ≠ [] →
      parseRef (immisScheme ++ (h ++ '/' :: (pathseg ++ '?' :: (sessionKey ++ s)))) =
        .ok (h, 443, s)) ∧
    (∀ (h p pathseg : List Char) (n : Nat),
      ':' ∉ h → '/' ∉ h → ':' ∉ p → '/' ∉ p → pyInt p = some n →
      afterFirst sessionKey ('/' :: pathseg) = none →
      parseRef (immisScheme ++ (h ++ ':' :: (p ++ '/' :: pathseg))) =
        .ok (h, n, '/' :: pathseg)) := by
  refine ⟨?_, ?_, ?_⟩
  · intro h p s pathseg n hhc hhs hpc hps hn hseg hs hamp hne
    have hurl : parse_url (immisScheme ++
        (h ++ ':' :: (p ++ '/' :: (pathseg ++ '?' :: (sessionKey ++ s))))) =
        .ok (h, n, '/' :: (pathseg ++ '?' :: (sessionKey ++ s))) := by
      rw [parse_url_immis, parse_url_rest_split (splitOnce_hostport hhs hps),
        parseHostPort_port hhc hpc hn]
    rw [parseRef_ok hurl]
    have hpath : '/' :: (pathseg ++ '?' :: (sessionKey ++ s)) =
        ('/' :: pathseg ++ ['?']) ++ sessionKey ++ s := by
      simp
    rw [hpath, sessionOf_query hseg hs hamp hne]
  · intro h s pathseg hhc hhs hseg hs hamp hne
    have hsp : splitOnce '/' (h ++ '/' :: (pathseg ++ '?' :: (sessionKey ++ s))) =
        some (h, pathseg ++ '?' :: (sessionKey ++ s)) :=
      splitOnce_mid _ hhs
    have hurl : parse_url (immisScheme ++ (h ++ '/' :: (pathseg ++ '?' :: (sessionKey ++ s)))) =
        .ok (h, 443, '/' :: (pathseg ++ '?' :: (sessionKey ++ s))) := by
      rw [parse_url_immis, parse_url_rest_split hsp, parseHostPort_noport hhc]
    rw [parseRef_ok hurl]
    have hpath : '/' :: (pathseg ++ '?' :: (sessionKey ++ s)) =
        ('/' :: pathseg ++ ['?']) ++ sessionKey ++ s := by
      simp
    rw [hpath, sessionOf_query hseg hs hamp hne]
  · intro h p pathseg n hhc hhs hpc hps hn hseg
    have hurl : parse_url (immisScheme ++ (h ++ ':' :: (p ++ '/' :: pathseg))) =
        .ok (h, n, '/' :: pathseg) := by
      rw [parse_url_immis, parse_url_rest_split (splitOnce_hostport hhs hps),
        parseHostPort_port hhc hpc hn]
    rw [parseRef_ok hurl, sessionOf_none hseg]

theorem reference_parsing_witness :
    parseRef (immisScheme ++
        (['h'] ++ ':' :: (['8', '0'] ++ '/' :: (['x'] ++ '?' :: (sessionKey ++ ['a', 'b']))))) =
      .ok (['h'], 80, ['a', 'b']) ∧
    parseRef (immisScheme ++ (['h'] ++ '/' :: (['x'] ++ '?' :: (sessionKey ++ ['a', 'b'])))) =
      .ok (['h'], 443, ['a', 'b']) ∧
    parseRef (immisScheme ++ (['h'] ++ ':' :: (['8', '0'] ++ '/' :: ['x', 'y']))) =
      .ok (['h'], 80, '/' :: ['x', 'y']) :=
  ⟨reference_parsing.1 ['h'] ['8', '0'] ['a', 'b'] ['x'] 80 (by decide) (by decide)
      (by decide) (by decide) (by decide) (by decide) (by decide) (by decide) (by decide),
   reference_parsing.2.1 ['h'] ['a', 'b'] ['x'] (by decide) (by decide)
      (by decide) (by decide) (by decide) (by decide),
   reference_parsing.2.2 ['h'] ['8', '0'] ['x', 'y'] 80 (by decide) (by decide)
      (by decide) (by decide) (by decide) (by decide)⟩

/-- C8 (amended): the reference parser performs no validation and has no
typed parse error.  An input without the recognized scheme is parsed
anyway, an empty host segment is accepted, and the only failure the parser
can produce is Python's untyped `ValueError` from the port phase. -/
theorem parser_no_typed_error :
    (∀ (url : List Char) (e : PyErr), parse_url url = .error e → e = PyErr.valueError) ∧
    parse_url immisScheme = .ok ([], 443, ['/']) ∧
    (∀ s : List Char, ':' ∉ s → '/' ∉ s → parse_url s = .ok (s, 443, ['/'])) := by
  refine ⟨?_, rfl, ?_⟩
  · intro url e _
    cases e
    rfl
  · intro s hc hs
    unfold parse_url
    have hsw : startsWith immisScheme s = false := by
      by_cases h : startsWith immisScheme s = true
      · exfalso
        rw [startsWith_eq_take] at h
        have : (':' : Char) ∈ s.take immisScheme.length := by
          rw [h]
          decide
        exact hc (List.take_subset _ _ this)
      · simpa using h
    rw [if_neg (by rw [hsw]; intro hcontra; cases hcontra)]
    rw [parse_url_rest_nosplit (splitOnce_not_mem hs), parseHostPort_noport hc]

theorem parser_no_typed_error_witness :
    PyErr.valueError = PyErr.valueError ∧
      parse_url ['a', 'b'] = .ok (['a', 'b'], 443, ['/']) :=
  ⟨parser_no_typed_error.1 ['a', ':', ':'] PyErr.valueError rfl,
   parser_no_typed_error.2.2 ['a', 'b'] (by decide) (by decide)⟩

/-- C8 counterexample: inputs that the claim says must fail with
`MalformedReferenceError` — a string without a recognized scheme, and
references with an empty host segment — are parsed successfully with no
error of any kind. -/
theorem parser_accepts_malformed :
    parse_url ['f', 'o', 'o'] = .ok (['f', 'o', 'o'], 443, ['/']) ∧
    parse_url immisScheme = .ok ([], 443, ['/']) ∧
    parse_url [] = .ok ([], 443, ['/']) :=
  ⟨rfl, rfl, rfl⟩

/-- C10: the parser does no scheme validation and is partial outside the
proprietary scheme: a colon-free, slash-free string parses as a bare host
with port 443 and path `/`, while any `rtsp://` or `rtsps://` reference
makes the host:port segment `rtsp:`/`rtsps:` whose empty port makes
`int('')` raise an untyped `ValueError`. -/
theorem parser_partiality :
    (∀ s : List Char, ':' ∉ s → '/' ∉ s → parse_url s = .ok (s, 443, ['/'])) ∧
    (∀ rest : List Char,
      parse_url (['r', 't', 's', 'p', ':', '/', '/'] ++ rest) = .error .valueError) ∧
    (∀ rest : List Char,
      parse_url (['r', 't', 's', 'p', 's', ':', '/', '/'] ++ rest) = .error .valueError) := by
  refine ⟨?_, fun rest => rfl, fun rest => rfl⟩
  intro s hc hs
  unfold parse_url
  have hsw : startsWith immisScheme s = false := by
    by_cases h : startsWith immisScheme s = true
    · exfalso
      rw [startsWith_eq_take] at h
      have : (':' : Char) ∈ s.take immisScheme.length := by
        rw [h]
        decide
      exact hc (List.take_subset _ _ this)
    · simpa using h
  rw [if_neg (by rw [hsw]; intro hcontra; cases hcontra)]
  rw [parse_url_rest_nosplit (splitOnce_not_mem hs), parseHostPort_noport hc]

theorem parser_partiality_witness :
    parse_url ['c', 'a', 'm'] = .ok (['c', 'a', 'm'], 443, ['/']) ∧
    parse_url (['r', 't', 's', 'p', ':', '/', '/'] ++ ['h', '/', 'p']) = .error .valueError ∧
    parse_url (['r', 't', 's', 'p', 's', ':', '/', '/'] ++ ['h', '/', 'p']) =
      .error .valueError :=
  ⟨parser_partiality.1 ['c', 'a', 'm'] (by decide) (by decide),
   parser_partiality.2.1 ['h', '/', 'p'],
   parser_partiality.2.2 ['h', '/', 'p']⟩

end BlinkApp
